import Mathlib

/-!
Verification of the argument-translation layer in `gmt/decorators.py`:
the alias-substitution pass of `use_alias`, the value-conversion pass of
`kwargs_to_strings`, the blanket boolean pass of `parse_bools`, and the
alias-listing block of `fmt_docstring`.

Python keyword-argument dictionaries are modelled as ordered association
lists with unique keys (insertion-ordered, as Python dicts are): lookup
finds the first matching key, assignment replaces the value in place when
the key is present and appends at the end otherwise, and `pop` removes
the entry.
-/

/-- A scalar Python value: a string, a boolean, or an integer. -/
inductive Scalar : Type where
  | str (s : String)
  | bool (b : Bool)
  | int (n : Int)
deriving DecidableEq

/-- The string representation a scalar takes under the Python format
conversion of an item:
strings stay themselves, booleans render as `True` / `False`, integers
in decimal. -/
def Scalar.fmt : Scalar → String
  | .str s => s
  | .bool b => if b then "True" else "False"
  | .int n => toString n

/-- A Python value as it can appear as a keyword-argument value in this
layer: a scalar, or a (non-string) sequence such as a list or tuple; in
this model the elements of a sequence are scalar values. -/
inductive Value : Type where
  | str (s : String)
  | bool (b : Bool)
  | int (n : Int)
  | seq (elems : List Scalar)
deriving DecidableEq

/-- Modelled from the spec: `is_nonstr_iter` is imported from `gmt.utils`,
whose file is not among the sources; the spec describes the test as
"the value is an ordered, non-string iterable collection", which in this
value model is exactly the sequence constructor. -/
def is_nonstr_iter : Value → Bool
  | .seq _ => true
  | _ => false

/-- Lookup in a Python dict modelled as an association list: the value
of the first entry with the given key, if any. -/
def aget {α : Type} : List (String × α) → String → Option α
  | [], _ => none
  | (k2, v) :: t, k => if k2 = k then some v else aget t k

/-- Membership test (`key in kwargs`). -/
def acontains {α : Type} : List (String × α) → String → Bool
  | [], _ => false
  | (k2, _) :: t, k => k2 = k || acontains t k

/-- Assignment `d[k] = v` on a Python dict: replace the value in place if
the key is present, otherwise append the new entry at the end. -/
def aset {α : Type} : List (String × α) → String → α → List (String × α)
  | [], k, v => [(k, v)]
  | (k2, w) :: t, k, v => if k2 = k then (k, v) :: t else (k2, w) :: aset t k v

/-- Key removal `d.pop(k)` on a Python dict (dropping the returned
value): remove the entry with the given key. -/
def aerase {α : Type} : List (String × α) → String → List (String × α)
  | [], _ => []
  | (k2, w) :: t, k => if k2 = k then t else (k2, w) :: aerase t k

/-- The keyword arguments of one call. -/
abbrev Kwargs := List (String × Value)

/-- One iteration of the loop in the `new_module` wrapper of `use_alias`:
`if alias in kwargs: kwargs[arg] = kwargs.pop(alias)` for the pair
`p = (arg, alias)`. -/
def use_alias_step (kw : Kwargs) (p : String × String) : Kwargs :=
  match aget kw p.2 with
  | none => kw
  | some v => aset (aerase kw p.2) p.1 v

/-- The keyword-argument transformation performed by the `new_module`
wrapper of `use_alias`: iterate over the declared `(arg, alias)` pairs in order,
moving each present alias to its canonical name. -/
def use_alias_transform (aliases : List (String × String)) (kw : Kwargs) : Kwargs :=
  aliases.foldl use_alias_step kw

/-- The full call transformation of the `new_module` wrapper of
`use_alias`: the
positional arguments together with the rewritten keyword arguments, as
they are handed to `module_func`. -/
def use_alias_new_module (aliases : List (String × String)) (args : List Value)
    (kw : Kwargs) : List Value × Kwargs :=
  (args, use_alias_transform aliases kw)

/-- The `valid_conversions` list of `kwargs_to_strings`. -/
def valid_conversions : List String := ["bool", "sequence", "sequence_comma"]

/-- The construction-time validation loop of `kwargs_to_strings`: the
`assert fmt in valid_conversions` over the declared conversions, raising
on the first invalid conversion kind. -/
def kwargs_to_strings_validate : List (String × String) → Except String Unit
  | [] => .ok ()
  | (arg, fmt) :: t =>
      if fmt ∈ valid_conversions then kwargs_to_strings_validate t
      else .error ("Invalid conversion type " ++ fmt ++ " for argument " ++ arg ++ ".")

/-- The `separators` dictionary of `kwargs_to_strings`. -/
def separators : List (String × String) := [("sequence", "/"), ("sequence_comma", ",")]

/-- One iteration of the conversion loop in the `new_module` wrapper of
`kwargs_to_strings`, for the pair `p = (arg, fmt)`: booleans become the empty
string or are removed, non-string iterables are joined with the
separator for `fmt`, everything else is left alone. -/
def kwargs_to_strings_step (kw : Kwargs) (p : String × String) : Kwargs :=
  match aget kw p.1 with
  | none => kw
  | some value =>
      if p.2 = "bool" then
        match value with
        | .bool b => if b then aset kw p.1 (.str "") else aerase kw p.1
        | _ => kw
      else if p.2 = "sequence" ∨ p.2 = "sequence_comma" then
        if is_nonstr_iter value then
          match value with
          | .seq l =>
              aset kw p.1 (.str (String.intercalate
                (if p.2 = "sequence" then "/" else ",") (l.map Scalar.fmt)))
          | _ => kw
        else kw
      else kw

/-- The keyword-argument transformation performed by the `new_module`
wrapper of `kwargs_to_strings`: iterate over the declared `(arg, fmt)` conversions in
order. -/
def kwargs_to_strings_transform (conversions : List (String × String)) (kw : Kwargs) : Kwargs :=
  conversions.foldl kwargs_to_strings_step kw

/-- The full call transformation of the `new_module` wrapper of
`kwargs_to_strings`. -/
def kwargs_to_strings_new_module (conversions : List (String × String)) (args : List Value)
    (kw : Kwargs) : List Value × Kwargs :=
  (args, kwargs_to_strings_transform conversions kw)

/-- The composed call-time chain in decorator order: `use_alias` resolves
aliases first, then `kwargs_to_strings` normalizes values; positional
arguments ride along untouched. -/
def decorated_call (aliases conversions : List (String × String)) (args : List Value)
    (kw : Kwargs) : List Value × Kwargs :=
  kwargs_to_strings_new_module conversions args (use_alias_new_module aliases args kw).2

/-- The keyword-argument transformation of the `new_func` wrapper of
`parse_bools`:
build a fresh dict, turning every `True` into the empty string, dropping
every `False`, and copying everything else unchanged. -/
def parse_bools_transform : Kwargs → Kwargs
  | [] => []
  | (arg, v) :: t =>
      match v with
      | .bool b =>
          if b then (arg, Value.str "") :: parse_bools_transform t
          else parse_bools_transform t
      | _ => (arg, v) :: parse_bools_transform t

/-- Lexicographic less-or-equal on character lists by code point, the
order Python uses to compare strings. -/
def charListLe : List Char → List Char → Bool
  | [], _ => true
  | _ :: _, [] => false
  | a :: as, b :: bs => if a = b then charListLe as bs else decide (a.toNat < b.toNat)

/-- Python string comparison `a <= b`: lexicographic on code points. -/
def pyLe (a b : String) : Bool := charListLe a.data b.data

/-- Insert a string into a list, before the first element it compares
less-or-equal to. -/
def insertSorted (x : String) : List String → List String
  | [] => [x]
  | y :: t => if pyLe x y then x :: y :: t else y :: insertSorted x t

/-- Ascending sort of a list of strings, matching what the Python
`sorted` builtin produces on a list of distinct strings. -/
def sortStrings : List String → List String
  | [] => []
  | x :: t => insertSorted x (sortStrings t)

/-- The sorted canonical codes over which `fmt_docstring` iterates:
`sorted(module_func.aliases)` sorts the dict keys ascending. -/
def fmt_docstring_sorted_keys (aliases : List (String × String)) : List String :=
  sortStrings (aliases.map Prod.fst)

/-- The alias listing built by `fmt_docstring`: the header line followed
by one `- arg = alias` line per canonical code, in sorted key order. -/
def fmt_docstring_aliases (aliases : List (String × String)) : List String :=
  "**Aliases:**\n" ::
    (fmt_docstring_sorted_keys aliases).map
      (fun arg => "- " ++ arg ++ " = " ++ ((aget aliases arg).getD ""))

/-! ## Association-list dictionary lemmas -/

/-- The keys of a dict, in order. -/
def akeys {α : Type} (d : List (String × α)) : List String := d.map Prod.fst

theorem aget_aset_self {α : Type} (d : List (String × α)) (k : String) (v : α) :
    aget (aset d k v) k = some v := by
  induction d with
  | nil => simp [aset, aget]
  | cons h t ih =>
    obtain ⟨k2, w⟩ := h
    by_cases hk : k2 = k
    · simp [aset, hk, aget]
    · simp [aset, hk, aget, ih]

theorem aget_aset_ne {α : Type} (d : List (String × α)) (k x : String) (v : α)
    (h : x ≠ k) : aget (aset d k v) x = aget d x := by
  induction d with
  | nil => simp [aset, aget, h.symm]
  | cons hd t ih =>
    obtain ⟨k2, w⟩ := hd
    by_cases hk : k2 = k
    · subst hk
      simp [aset, aget, h.symm]
    · simp only [aset, if_neg hk, aget]
      by_cases hx : k2 = x <;> simp [hx, ih]

theorem aget_aerase_ne {α : Type} (d : List (String × α)) (k x : String)
    (h : x ≠ k) : aget (aerase d k) x = aget d x := by
  induction d with
  | nil => simp [aerase]
  | cons hd t ih =>
    obtain ⟨k2, w⟩ := hd
    by_cases hk : k2 = k
    · subst hk
      simp [aerase, aget, h.symm]
    · simp only [aerase, if_neg hk, aget]
      by_cases hx : k2 = x <;> simp [hx, ih]

theorem aerase_sublist {α : Type} (d : List (String × α)) (k : String) :
    (aerase d k).Sublist d := by
  induction d with
  | nil => simp [aerase]
  | cons hd t ih =>
    obtain ⟨k2, w⟩ := hd
    by_cases hk : k2 = k
    · simp only [aerase, if_pos hk]
      exact List.sublist_cons_self (k2, w) t
    · simpa [aerase, hk] using ih.cons₂ (k2, w)

theorem nodup_akeys_aerase {α : Type} (d : List (String × α)) (k : String)
    (h : (akeys d).Nodup) : (akeys (aerase d k)).Nodup :=
  h.sublist ((aerase_sublist d k).map Prod.fst)

theorem mem_akeys_aset {α : Type} (d : List (String × α)) (k x : String) (v : α) :
    x ∈ akeys (aset d k v) ↔ x ∈ akeys d ∨ x = k := by
  induction d with
  | nil => simp [aset, akeys]
  | cons hd t ih =>
    obtain ⟨k2, w⟩ := hd
    by_cases hk : k2 = k
    · subst hk
      by_cases hx : x = k2 <;> simp [aset, akeys, hx]
    · simp only [aset, if_neg hk, akeys, List.map_cons, List.mem_cons]
      rw [akeys] at ih
      rw [ih]
      tauto

theorem nodup_akeys_aset {α : Type} (d : List (String × α)) (k : String) (v : α)
    (h : (akeys d).Nodup) : (akeys (aset d k v)).Nodup := by
  induction d with
  | nil => simp [aset, akeys]
  | cons hd t ih =>
    obtain ⟨k2, w⟩ := hd
    simp only [akeys, List.map_cons, List.nodup_cons] at h
    by_cases hk : k2 = k
    · subst hk
      simpa [aset, akeys] using h
    · simp only [aset, if_neg hk, akeys, List.map_cons, List.nodup_cons]
      refine ⟨?_, ih h.2⟩
      rw [show (aset t k v).map Prod.fst = akeys (aset t k v) from rfl]
      rw [mem_akeys_aset]
      push_neg
      exact ⟨fun hm => h.1 hm, hk⟩

theorem aget_eq_none_iff {α : Type} (d : List (String × α)) (k : String) :
    aget d k = none ↔ k ∉ akeys d := by
  induction d with
  | nil => simp [aget, akeys]
  | cons hd t ih =>
    obtain ⟨k2, w⟩ := hd
    by_cases hk : k2 = k
    · subst hk
      simp [aget, akeys]
    · simp [aget, akeys, hk, ih, Ne.symm hk]

theorem aget_aerase_self {α : Type} (d : List (String × α)) (k : String)
    (h : (akeys d).Nodup) : aget (aerase d k) k = none := by
  induction d with
  | nil => simp [aerase, aget]
  | cons hd t ih =>
    obtain ⟨k2, w⟩ := hd
    simp only [akeys, List.map_cons, List.nodup_cons] at h
    by_cases hk : k2 = k
    · subst hk
      rw [aerase, if_pos rfl, aget_eq_none_iff]
      exact h.1
    · simp only [aerase, if_neg hk, aget, if_neg hk]
      exact ih h.2

theorem aget_of_mem {α : Type} (d : List (String × α)) (k : String) (v : α)
    (h : (akeys d).Nodup) (hm : (k, v) ∈ d) : aget d k = some v := by
  induction d with
  | nil => simp at hm
  | cons hd t ih =>
    obtain ⟨k2, w⟩ := hd
    have h1 : k2 ∉ akeys t := (List.nodup_cons.1 h).1
    have h2 : (akeys t).Nodup := (List.nodup_cons.1 h).2
    rcases List.mem_cons.1 hm with heq | hm2
    · injection heq with hk2 hv
      subst hk2
      subst hv
      simp [aget]
    · have hk : k2 ≠ k := by
        rintro rfl
        exact h1 (List.mem_map_of_mem Prod.fst hm2)
      simp only [aget, if_neg hk]
      exact ih h2 hm2

/-! ## Lemmas about the alias pass of use_alias -/

theorem use_alias_transform_cons (p : String × String) (t : List (String × String))
    (kw : Kwargs) :
    use_alias_transform (p :: t) kw = use_alias_transform t (use_alias_step kw p) := rfl

theorem use_alias_step_preserves (kw : Kwargs) (p : String × String) (x : String)
    (h1 : x ≠ p.1) (h2 : x ≠ p.2) : aget (use_alias_step kw p) x = aget kw x := by
  unfold use_alias_step
  cases hh : aget kw p.2 with
  | none => rfl
  | some v => rw [aget_aset_ne _ _ _ _ h1, aget_aerase_ne _ _ _ h2]

theorem use_alias_transform_preserves (al : List (String × String)) (kw : Kwargs)
    (x : String) (h : ∀ p ∈ al, x ≠ p.1 ∧ x ≠ p.2) :
    aget (use_alias_transform al kw) x = aget kw x := by
  induction al generalizing kw with
  | nil => rfl
  | cons p t ih =>
    rw [use_alias_transform_cons]
    rw [ih (use_alias_step kw p) (fun q hq => h q (List.mem_cons_of_mem p hq))]
    exact use_alias_step_preserves kw p x (h p (List.mem_cons_self p t)).1
      (h p (List.mem_cons_self p t)).2

theorem use_alias_transform_fixed (al : List (String × String)) (kw : Kwargs)
    (h : ∀ p ∈ al, aget kw p.2 = none) : use_alias_transform al kw = kw := by
  induction al with
  | nil => rfl
  | cons p t ih =>
    have hstep : use_alias_step kw p = kw := by
      unfold use_alias_step
      rw [h p (List.mem_cons_self p t)]
    rw [use_alias_transform_cons, hstep]
    exact ih (fun q hq => h q (List.mem_cons_of_mem p hq))

theorem use_alias_transform_friendly (al : List (String × String)) (c f : String)
    (v : Value) (hsnd : (al.map Prod.snd).Nodup)
    (hdisj : ∀ p ∈ al, p.2 ∉ al.map Prod.fst) (hmem : (c, f) ∈ al) :
    use_alias_transform al [(f, v)] = [(c, v)] := by
  obtain ⟨l1, l2, rfl⟩ := List.append_of_mem hmem
  have hsplit := hsnd
  rw [List.map_append, List.nodup_append] at hsplit
  obtain ⟨-, hcons, hdisj2⟩ := hsplit
  rw [use_alias_transform, List.foldl_append]
  have hl1 : List.foldl use_alias_step [(f, v)] l1 = [(f, v)] := by
    refine use_alias_transform_fixed l1 [(f, v)] (fun p hp => ?_)
    have hne : f ≠ p.2 := by
      rintro rfl
      exact hdisj2 (List.mem_map_of_mem Prod.snd hp)
        (by simp [List.map_cons, List.mem_cons])
    simp [aget, hne]
  rw [hl1, List.foldl_cons]
  have hstep : use_alias_step [(f, v)] (c, f) = [(c, v)] := by
    unfold use_alias_step
    simp [aget, aerase, aset]
  rw [hstep]
  refine use_alias_transform_fixed l2 [(c, v)] (fun p hp => ?_)
  have hne : c ≠ p.2 := by
    rintro rfl
    refine hdisj p (by simp [List.mem_append, List.mem_cons, hp]) ?_
    simp [List.map_append, List.map_cons, List.mem_append, List.mem_cons]
  simp [aget, hne]

theorem use_alias_transform_both (al : List (String × String)) (c f : String)
    (v1 v2 : Value) (hsnd : (al.map Prod.snd).Nodup)
    (hdisj : ∀ p ∈ al, p.2 ∉ al.map Prod.fst) (hmem : (c, f) ∈ al) :
    use_alias_transform al [(c, v1), (f, v2)] = [(c, v2)] := by
  have hfc : f ≠ c := by
    intro hh
    exact hdisj (c, f) hmem (hh ▸ List.mem_map_of_mem Prod.fst hmem)
  obtain ⟨l1, l2, rfl⟩ := List.append_of_mem hmem
  have hsplit := hsnd
  rw [List.map_append, List.nodup_append] at hsplit
  obtain ⟨-, hcons, hdisj2⟩ := hsplit
  rw [use_alias_transform, List.foldl_append]
  have hl1 : List.foldl use_alias_step [(c, v1), (f, v2)] l1 = [(c, v1), (f, v2)] := by
    refine use_alias_transform_fixed l1 [(c, v1), (f, v2)] (fun p hp => ?_)
    have hnef : f ≠ p.2 := by
      rintro rfl
      exact hdisj2 (List.mem_map_of_mem Prod.snd hp)
        (by simp [List.map_cons, List.mem_cons])
    have hnec : c ≠ p.2 := by
      rintro rfl
      refine hdisj p (by simp [List.mem_append, List.mem_cons, hp]) ?_
      simp [List.map_append, List.map_cons, List.mem_append, List.mem_cons]
    simp [aget, hnef, hnec]
  rw [hl1, List.foldl_cons]
  have hstep : use_alias_step [(c, v1), (f, v2)] (c, f) = [(c, v2)] := by
    unfold use_alias_step
    simp [aget, aerase, aset, hfc, Ne.symm hfc]
  rw [hstep]
  refine use_alias_transform_fixed l2 [(c, v2)] (fun p hp => ?_)
  have hne : c ≠ p.2 := by
    rintro rfl
    refine hdisj p (by simp [List.mem_append, List.mem_cons, hp]) ?_
    simp [List.map_append, List.map_cons, List.mem_append, List.mem_cons]
  simp [aget, hne]

/-! ## C1 and C2: alias substitution -/

/-- C1 (amended): for an alias table whose friendly names are pairwise
distinct and disjoint from the canonical codes, and any declared pair
`(canonical, friendly)` and value `v`, calling with `{friendly: v}`
hands the inner function the same keyword mapping as calling with
`{canonical: v}`: the value sits under the canonical key and the
friendly key is absent. -/
theorem use_alias_friendly_eq_canonical (al : List (String × String)) (c f : String)
    (v : Value) (hsnd : (al.map Prod.snd).Nodup)
    (hdisj : ∀ p ∈ al, p.2 ∉ al.map Prod.fst) (hmem : (c, f) ∈ al) :
    use_alias_transform al [(f, v)] = [(c, v)] ∧
    use_alias_transform al [(c, v)] = [(c, v)] := by
  refine ⟨use_alias_transform_friendly al c f v hsnd hdisj hmem, ?_⟩
  refine use_alias_transform_fixed al [(c, v)] (fun p hp => ?_)
  have hne : c ≠ p.2 := by
    rintro rfl
    exact hdisj p hp (List.mem_map_of_mem Prod.fst hmem)
  simp [aget, hne]

/-- C1 counterexample: with the alias table `{R: x, S: x}` (two canonical
codes sharing the friendly name `x`) and the declared pair `(S, x)`,
calling with `{x: v}` does not yield the same mapping as calling with
`{S: v}`: the first resolves to `{R: v}`, the second stays `{S: v}`. -/
theorem use_alias_friendly_eq_canonical_cex :
    ("S", "x") ∈ ([("R", "x"), ("S", "x")] : List (String × String)) ∧
    use_alias_transform [("R", "x"), ("S", "x")] [("x", Value.str "v")] ≠
      use_alias_transform [("R", "x"), ("S", "x")] [("S", Value.str "v")] := by decide

/-- C1 witness at the table `{R: region}`. -/
theorem use_alias_friendly_eq_canonical_witness :
    use_alias_transform [("R", "region")] [("region", Value.str "1/2/3/4")]
      = [("R", Value.str "1/2/3/4")] ∧
    use_alias_transform [("R", "region")] [("R", Value.str "1/2/3/4")]
      = [("R", Value.str "1/2/3/4")] :=
  use_alias_friendly_eq_canonical [("R", "region")] "R" "region" (Value.str "1/2/3/4")
    (by decide) (by decide) (by decide)

/-- C2 (amended): for an alias table whose friendly names are pairwise
distinct and disjoint from the canonical codes, when a call supplies
both the canonical and the friendly name of a declared pair, the inner
function sees the friendly-named value under the canonical key, the
friendly key is gone, and the result equals that of calling with only
the friendly-named value. -/
theorem use_alias_both_friendly_wins (al : List (String × String)) (c f : String)
    (v1 v2 : Value) (hsnd : (al.map Prod.snd).Nodup)
    (hdisj : ∀ p ∈ al, p.2 ∉ al.map Prod.fst) (hmem : (c, f) ∈ al) :
    use_alias_transform al [(c, v1), (f, v2)] = use_alias_transform al [(f, v2)] ∧
    aget (use_alias_transform al [(c, v1), (f, v2)]) c = some v2 ∧
    aget (use_alias_transform al [(c, v1), (f, v2)]) f = none := by
  have hboth := use_alias_transform_both al c f v1 v2 hsnd hdisj hmem
  have hfr := use_alias_transform_friendly al c f v2 hsnd hdisj hmem
  have hfc : f ≠ c := by
    intro hh
    exact hdisj (c, f) hmem (hh ▸ List.mem_map_of_mem Prod.fst hmem)
  refine ⟨hboth.trans hfr.symm, ?_, ?_⟩
  · rw [hboth]
    simp [aget]
  · rw [hboth]
    simp [aget, Ne.symm hfc]

/-- C2 counterexample: with the alias table `{R: x, S: x}` and the
declared pair `(S, x)`, supplying both `S` and `x` leaves the original
`S` value in place (the canonical key does not receive the friendly
value), and the result differs from calling with only `{x: b}`. -/
theorem use_alias_both_friendly_wins_cex :
    ("S", "x") ∈ ([("R", "x"), ("S", "x")] : List (String × String)) ∧
    aget (use_alias_transform [("R", "x"), ("S", "x")]
      [("S", Value.str "a"), ("x", Value.str "b")]) "S" ≠ some (Value.str "b") ∧
    use_alias_transform [("R", "x"), ("S", "x")] [("S", Value.str "a"), ("x", Value.str "b")]
      ≠ use_alias_transform [("R", "x"), ("S", "x")] [("x", Value.str "b")] := by decide

/-- C2 witness at the table `{R: region}`. -/
theorem use_alias_both_friendly_wins_witness :
    use_alias_transform [("R", "region")] [("R", Value.str "old"), ("region", Value.str "new")]
      = use_alias_transform [("R", "region")] [("region", Value.str "new")] ∧
    aget (use_alias_transform [("R", "region")]
      [("R", Value.str "old"), ("region", Value.str "new")]) "R" = some (Value.str "new") ∧
    aget (use_alias_transform [("R", "region")]
      [("R", Value.str "old"), ("region", Value.str "new")]) "region" = none :=
  use_alias_both_friendly_wins [("R", "region")] "R" "region" (Value.str "old")
    (Value.str "new") (by decide) (by decide) (by decide)

/-! ## Lemmas about the conversion pass of kwargs_to_strings -/

/-- Boolean test on values (`isinstance(value, bool)`). -/
def Value.isBool : Value → Bool
  | .bool _ => true
  | _ => false

theorem kwargs_to_strings_step_shape (kw : Kwargs) (p : String × String) :
    kwargs_to_strings_step kw p = kw ∨
    (∃ w, kwargs_to_strings_step kw p = aset kw p.1 w) ∨
    kwargs_to_strings_step kw p = aerase kw p.1 := by
  cases hh : aget kw p.1 with
  | none => left; simp [kwargs_to_strings_step, hh]
  | some value =>
    simp only [kwargs_to_strings_step, hh]
    by_cases hb : p.2 = "bool"
    · rw [if_pos hb]
      cases value with
      | bool b =>
        cases b
        · right; right; rfl
        · right; left; exact ⟨_, rfl⟩
      | str s => left; rfl
      | int n => left; rfl
      | seq l => left; rfl
    · rw [if_neg hb]
      by_cases hs : p.2 = "sequence" ∨ p.2 = "sequence_comma"
      · rw [if_pos hs]
        cases value with
        | seq l =>
          right; left
          refine ⟨Value.str ((if p.2 = "sequence" then "/" else ",").intercalate
            (List.map Scalar.fmt l)), ?_⟩
          simp [is_nonstr_iter]
        | str s => left; simp [is_nonstr_iter]
        | bool b => left; simp [is_nonstr_iter]
        | int n => left; simp [is_nonstr_iter]
      · rw [if_neg hs]; left; rfl

theorem kwargs_to_strings_step_preserves (kw : Kwargs) (p : String × String) (x : String)
    (h : x ≠ p.1) : aget (kwargs_to_strings_step kw p) x = aget kw x := by
  rcases kwargs_to_strings_step_shape kw p with h1 | ⟨w, h1⟩ | h1 <;> rw [h1]
  · exact aget_aset_ne kw p.1 x w h
  · exact aget_aerase_ne kw p.1 x h

theorem nodup_akeys_kwargs_to_strings_step (kw : Kwargs) (p : String × String)
    (h : (akeys kw).Nodup) : (akeys (kwargs_to_strings_step kw p)).Nodup := by
  rcases kwargs_to_strings_step_shape kw p with h1 | ⟨w, h1⟩ | h1 <;> rw [h1]
  · exact h
  · exact nodup_akeys_aset kw p.1 w h
  · exact nodup_akeys_aerase kw p.1 h

theorem kwargs_to_strings_transform_cons (p : String × String)
    (t : List (String × String)) (kw : Kwargs) :
    kwargs_to_strings_transform (p :: t) kw
      = kwargs_to_strings_transform t (kwargs_to_strings_step kw p) := rfl

theorem kwargs_to_strings_transform_preserves (conv : List (String × String))
    (kw : Kwargs) (x : String) (h : ∀ p ∈ conv, x ≠ p.1) :
    aget (kwargs_to_strings_transform conv kw) x = aget kw x := by
  induction conv generalizing kw with
  | nil => rfl
  | cons p t ih =>
    rw [kwargs_to_strings_transform_cons]
    rw [ih (kwargs_to_strings_step kw p) (fun q hq => h q (List.mem_cons_of_mem p hq))]
    exact kwargs_to_strings_step_preserves kw p x (h p (List.mem_cons_self p t))

theorem nodup_akeys_kwargs_to_strings_transform (conv : List (String × String))
    (kw : Kwargs) (h : (akeys kw).Nodup) :
    (akeys (kwargs_to_strings_transform conv kw)).Nodup := by
  induction conv generalizing kw with
  | nil => exact h
  | cons p t ih =>
    rw [kwargs_to_strings_transform_cons]
    exact ih (kwargs_to_strings_step kw p) (nodup_akeys_kwargs_to_strings_step kw p h)

theorem kwargs_to_strings_step_bool_true (kw : Kwargs) (k : String)
    (h : aget kw k = some (.bool true)) :
    kwargs_to_strings_step kw (k, "bool") = aset kw k (.str "") := by
  simp [kwargs_to_strings_step, h]

theorem kwargs_to_strings_step_bool_false (kw : Kwargs) (k : String)
    (h : aget kw k = some (.bool false)) :
    kwargs_to_strings_step kw (k, "bool") = aerase kw k := by
  simp [kwargs_to_strings_step, h]

theorem kwargs_to_strings_step_bool_other (kw : Kwargs) (k : String) (v : Value)
    (h : aget kw k = some v) (h2 : v.isBool = false) :
    kwargs_to_strings_step kw (k, "bool") = kw := by
  cases v with
  | bool b => simp [Value.isBool] at h2
  | str s => simp [kwargs_to_strings_step, h]
  | int n => simp [kwargs_to_strings_step, h]
  | seq l => simp [kwargs_to_strings_step, h]

theorem kwargs_to_strings_step_seq (kw : Kwargs) (k f : String) (l : List Scalar)
    (h : aget kw k = some (.seq l)) (hf : f = "sequence" ∨ f = "sequence_comma") :
    kwargs_to_strings_step kw (k, f)
      = aset kw k (.str (String.intercalate (if f = "sequence" then "/" else ",")
          (l.map Scalar.fmt))) := by
  rcases hf with rfl | rfl <;> simp [kwargs_to_strings_step, h, is_nonstr_iter]

theorem kwargs_to_strings_step_seq_other (kw : Kwargs) (k f : String) (v : Value)
    (h : aget kw k = some v) (h2 : is_nonstr_iter v = false)
    (hf : f = "sequence" ∨ f = "sequence_comma") :
    kwargs_to_strings_step kw (k, f) = kw := by
  cases v with
  | seq l => simp [is_nonstr_iter] at h2
  | str s => rcases hf with rfl | rfl <;> simp [kwargs_to_strings_step, h, is_nonstr_iter]
  | int n => rcases hf with rfl | rfl <;> simp [kwargs_to_strings_step, h, is_nonstr_iter]
  | bool b => rcases hf with rfl | rfl <;> simp [kwargs_to_strings_step, h, is_nonstr_iter]

theorem kwargs_to_strings_transform_decomp (conv : List (String × String))
    (hc : (akeys conv).Nodup) (k f : String) (hmem : (k, f) ∈ conv) (kw : Kwargs) :
    ∃ kw1, aget kw1 k = aget kw k ∧
      ((akeys kw).Nodup → (akeys kw1).Nodup) ∧
      aget (kwargs_to_strings_transform conv kw) k
        = aget (kwargs_to_strings_step kw1 (k, f)) k := by
  obtain ⟨l1, l2, rfl⟩ := List.append_of_mem hmem
  have hkeys : akeys (l1 ++ (k, f) :: l2) = akeys l1 ++ k :: akeys l2 := by
    simp [akeys]
  rw [hkeys, List.nodup_append] at hc
  obtain ⟨-, hcons, hdisj⟩ := hc
  have hk1 : k ∉ akeys l1 := fun hm => hdisj hm (List.mem_cons_self k (akeys l2))
  have hk2 : k ∉ akeys l2 := (List.nodup_cons.1 hcons).1
  refine ⟨List.foldl kwargs_to_strings_step kw l1, ?_, ?_, ?_⟩
  · exact kwargs_to_strings_transform_preserves l1 kw k
      (fun p hp => fun hh => hk1 (hh ▸ List.mem_map_of_mem Prod.fst hp))
  · exact fun hn => nodup_akeys_kwargs_to_strings_transform l1 kw hn
  · rw [kwargs_to_strings_transform, List.foldl_append, List.foldl_cons]
    exact kwargs_to_strings_transform_preserves l2 _ k
      (fun p hp => fun hh => hk2 (hh ▸ List.mem_map_of_mem Prod.fst hp))

/-! ## C3 and C4: value conversion rules -/

/-- C3: for every conversion table (unique keys, as a Python dict)
mapping a key to kind `bool` and every call whose keyword set (unique
keys) has that key: value `True` becomes the empty string, value `False`
removes the key, and a non-boolean value is left unchanged. -/
theorem kwargs_to_strings_bool_rule (conv : List (String × String))
    (hc : (akeys conv).Nodup) (k : String) (hmem : (k, "bool") ∈ conv)
    (kw : Kwargs) (hk : (akeys kw).Nodup) (v : Value) (hv : aget kw k = some v) :
    (v = .bool true → aget (kwargs_to_strings_transform conv kw) k = some (.str "")) ∧
    (v = .bool false → aget (kwargs_to_strings_transform conv kw) k = none) ∧
    (v.isBool = false → aget (kwargs_to_strings_transform conv kw) k = some v) := by
  obtain ⟨kw1, h1, h2, h3⟩ := kwargs_to_strings_transform_decomp conv hc k "bool" hmem kw
  rw [h3]
  refine ⟨?_, ?_, ?_⟩
  · rintro rfl
    rw [kwargs_to_strings_step_bool_true kw1 k (h1.trans hv), aget_aset_self]
  · rintro rfl
    rw [kwargs_to_strings_step_bool_false kw1 k (h1.trans hv)]
    exact aget_aerase_self kw1 k (h2 hk)
  · intro hb
    rw [kwargs_to_strings_step_bool_other kw1 k v (h1.trans hv) hb, h1, hv]

/-- C3 witness at the table `{R: sequence, P: bool}`. -/
theorem kwargs_to_strings_bool_rule_witness :
    aget (kwargs_to_strings_transform [("R", "sequence"), ("P", "bool")]
      [("P", Value.bool true)]) "P" = some (Value.str "") ∧
    aget (kwargs_to_strings_transform [("R", "sequence"), ("P", "bool")]
      [("P", Value.bool false)]) "P" = none ∧
    aget (kwargs_to_strings_transform [("R", "sequence"), ("P", "bool")]
      [("P", Value.str "x")]) "P" = some (Value.str "x") :=
  ⟨(kwargs_to_strings_bool_rule [("R", "sequence"), ("P", "bool")] (by decide) "P"
      (by decide) [("P", Value.bool true)] (by decide) (Value.bool true) (by decide)).1 rfl,
   (kwargs_to_strings_bool_rule [("R", "sequence"), ("P", "bool")] (by decide) "P"
      (by decide) [("P", Value.bool false)] (by decide) (Value.bool false) (by decide)).2.1 rfl,
   (kwargs_to_strings_bool_rule [("R", "sequence"), ("P", "bool")] (by decide) "P"
      (by decide) [("P", Value.str "x")] (by decide) (Value.str "x") (by decide)).2.2 rfl⟩

/-- C4: for every conversion table (unique keys) mapping a key to kind
`sequence` or `sequence_comma` and every call with that key present: a
non-string iterable value is replaced by the string representations of
its elements joined in order with the separator of the kind, and a string
or otherwise non-iterable value is left unchanged. -/
theorem kwargs_to_strings_sequence_rule (conv : List (String × String))
    (hc : (akeys conv).Nodup) (k f : String)
    (hf : f = "sequence" ∨ f = "sequence_comma") (hmem : (k, f) ∈ conv)
    (kw : Kwargs) (v : Value) (hv : aget kw k = some v) :
    (∀ l, v = .seq l → aget (kwargs_to_strings_transform conv kw) k
        = some (.str (String.intercalate (if f = "sequence" then "/" else ",")
            (l.map Scalar.fmt)))) ∧
    (is_nonstr_iter v = false → aget (kwargs_to_strings_transform conv kw) k = some v) := by
  obtain ⟨kw1, h1, h2, h3⟩ := kwargs_to_strings_transform_decomp conv hc k f hmem kw
  rw [h3]
  constructor
  · rintro l rfl
    rw [kwargs_to_strings_step_seq kw1 k f l (h1.trans hv) hf, aget_aset_self]
  · intro hni
    rw [kwargs_to_strings_step_seq_other kw1 k f v (h1.trans hv) hni hf, h1, hv]

/-- C4 witness at the table `{R: sequence, i: sequence_comma}`. -/
theorem kwargs_to_strings_sequence_rule_witness :
    aget (kwargs_to_strings_transform [("R", "sequence"), ("i", "sequence_comma")]
      [("R", Value.seq [.int 1, .int 2, .int 3, .int 4])]) "R"
      = some (Value.str "1/2/3/4") ∧
    aget (kwargs_to_strings_transform [("R", "sequence"), ("i", "sequence_comma")]
      [("i", Value.seq [.int 5, .int 6])]) "i" = some (Value.str "5,6") ∧
    aget (kwargs_to_strings_transform [("R", "sequence"), ("i", "sequence_comma")]
      [("R", Value.str "5/6/7/8")]) "R" = some (Value.str "5/6/7/8") :=
  ⟨((kwargs_to_strings_sequence_rule [("R", "sequence"), ("i", "sequence_comma")]
      (by decide) "R" "sequence" (Or.inl rfl) (by decide)
      [("R", Value.seq [.int 1, .int 2, .int 3, .int 4])]
      (Value.seq [.int 1, .int 2, .int 3, .int 4]) (by decide)).1
      [.int 1, .int 2, .int 3, .int 4] rfl).trans (by decide),
   ((kwargs_to_strings_sequence_rule [("R", "sequence"), ("i", "sequence_comma")]
      (by decide) "i" "sequence_comma" (Or.inr rfl) (by decide)
      [("i", Value.seq [.int 5, .int 6])]
      (Value.seq [.int 5, .int 6]) (by decide)).1 [.int 5, .int 6] rfl).trans (by decide),
   (kwargs_to_strings_sequence_rule [("R", "sequence"), ("i", "sequence_comma")]
      (by decide) "R" "sequence" (Or.inl rfl) (by decide)
      [("R", Value.str "5/6/7/8")] (Value.str "5/6/7/8") (by decide)).2 rfl⟩

/-! ## C5: construction-time validation -/

/-- C5: construction of a conversion table succeeds exactly when every
declared kind lies in the fixed set `{bool, sequence, sequence_comma}`;
a kind outside the set makes the `assert` raise immediately at
construction time, before any call. -/
theorem kwargs_to_strings_validation (conv : List (String × String)) :
    (kwargs_to_strings_validate conv = .ok ()
      ↔ ∀ p ∈ conv, p.2 ∈ valid_conversions) ∧
    ((∃ p ∈ conv, p.2 ∉ valid_conversions)
      → ∃ msg, kwargs_to_strings_validate conv = .error msg) := by
  have hiff : kwargs_to_strings_validate conv = .ok ()
      ↔ ∀ p ∈ conv, p.2 ∈ valid_conversions := by
    induction conv with
    | nil => simp [kwargs_to_strings_validate]
    | cons p t ih =>
      obtain ⟨arg, fmt⟩ := p
      by_cases hf : fmt ∈ valid_conversions
      · simp [kwargs_to_strings_validate, hf, ih]
      · simp only [kwargs_to_strings_validate, if_neg hf]
        constructor
        · intro h
          exact absurd h (by simp)
        · intro h
          exact absurd (h (arg, fmt) (List.mem_cons_self _ _)) hf
  refine ⟨hiff, fun hbad => ?_⟩
  cases hval : kwargs_to_strings_validate conv with
  | error msg => exact ⟨msg, rfl⟩
  | ok u =>
    obtain ⟨p, hp, hnp⟩ := hbad
    cases u
    exact absurd (hiff.1 hval p hp) hnp

/-- C5 witness: a valid table constructs, an invalid kind errors. -/
theorem kwargs_to_strings_validation_witness :
    kwargs_to_strings_validate [("R", "sequence"), ("P", "bool")] = .ok () ∧
    ∃ msg, kwargs_to_strings_validate [("x", "unsupported")] = .error msg :=
  ⟨(kwargs_to_strings_validation [("R", "sequence"), ("P", "bool")]).1.mpr (by decide),
   (kwargs_to_strings_validation [("x", "unsupported")]).2
     ⟨("x", "unsupported"), by decide, by decide⟩⟩

/-! ## C6: pass-through of undeclared arguments -/

/-- C6 counterexample: with aliases `{R: region}` and an empty conversion
table, the keyword `R` is neither a conversion-table key nor a friendly
alias name, yet the call `{R: a, region: b}` does not deliver `R`
unmodified: the alias pass overwrites it with `b`. -/
theorem decorated_call_passthrough_cex :
    "R" ∉ akeys ([] : List (String × String)) ∧
    "R" ∉ ([("R", "region")].map Prod.snd) ∧
    aget (decorated_call [("R", "region")] [] []
        [("R", Value.str "a"), ("region", Value.str "b")]).2 "R"
      ≠ aget [("R", Value.str "a"), ("region", Value.str "b")] "R" := by decide

/-- C6 (amended): through the alias-resolution and value-normalization
chain, the positional arguments are passed unchanged, and every keyword
whose name is not a conversion-table key, not a friendly alias name, and
not a canonical alias code reaches the inner function with its value
unmodified. -/
theorem decorated_call_passthrough (al conv : List (String × String)) (args : List Value)
    (kw : Kwargs) (k : String) (h1 : k ∉ akeys al) (h2 : k ∉ al.map Prod.snd)
    (h3 : k ∉ akeys conv) :
    (decorated_call al conv args kw).1 = args ∧
    aget (decorated_call al conv args kw).2 k = aget kw k := by
  refine ⟨rfl, ?_⟩
  show aget (kwargs_to_strings_transform conv (use_alias_transform al kw)) k = aget kw k
  rw [kwargs_to_strings_transform_preserves conv _ k
    (fun p hp hh => h3 (hh ▸ List.mem_map_of_mem Prod.fst hp))]
  exact use_alias_transform_preserves al kw k
    (fun p hp => ⟨fun hh => h1 (hh ▸ List.mem_map_of_mem Prod.fst hp),
                  fun hh => h2 (hh ▸ List.mem_map_of_mem Prod.snd hp)⟩)

/-- C6 witness: the mixed call from the spec, positional `123` preserved and the
undeclared keyword `bla` untouched. -/
theorem decorated_call_passthrough_witness :
    (decorated_call [] [("A", "bool"), ("i", "sequence_comma")] [Value.int 123]
      [("bla", Value.seq [.int 1, .int 2, .int 3]), ("foo", Value.bool true),
       ("A", Value.bool false), ("i", Value.seq [.int 5, .int 6])]).1 = [Value.int 123] ∧
    aget (decorated_call [] [("A", "bool"), ("i", "sequence_comma")] [Value.int 123]
      [("bla", Value.seq [.int 1, .int 2, .int 3]), ("foo", Value.bool true),
       ("A", Value.bool false), ("i", Value.seq [.int 5, .int 6])]).2 "bla"
      = aget [("bla", Value.seq [.int 1, .int 2, .int 3]), ("foo", Value.bool true),
          ("A", Value.bool false), ("i", Value.seq [.int 5, .int 6])] "bla" :=
  decorated_call_passthrough [] [("A", "bool"), ("i", "sequence_comma")] [Value.int 123]
    [("bla", Value.seq [.int 1, .int 2, .int 3]), ("foo", Value.bool true),
     ("A", Value.bool false), ("i", Value.seq [.int 5, .int 6])] "bla"
    (by decide) (by decide) (by decide)

/-! ## C7: the blanket boolean pass parse_bools -/

theorem akeys_parse_bools_subset (kw : Kwargs) (x : String)
    (h : x ∈ akeys (parse_bools_transform kw)) : x ∈ akeys kw := by
  induction kw with
  | nil => simp [parse_bools_transform, akeys] at h
  | cons hd t ih =>
    obtain ⟨k2, w⟩ := hd
    suffices hs : x = k2 ∨ x ∈ akeys t by simpa [akeys] using hs
    cases w with
    | bool b =>
      cases b with
      | false =>
        have h2 : x ∈ akeys (parse_bools_transform t) := by
          simpa [parse_bools_transform] using h
        exact Or.inr (ih h2)
      | true =>
        have h2 : x = k2 ∨ x ∈ akeys (parse_bools_transform t) := by
          simpa [parse_bools_transform, akeys] using h
        exact h2.imp id ih
    | str s =>
      have h2 : x = k2 ∨ x ∈ akeys (parse_bools_transform t) := by
        simpa [parse_bools_transform, akeys] using h
      exact h2.imp id ih
    | int n =>
      have h2 : x = k2 ∨ x ∈ akeys (parse_bools_transform t) := by
        simpa [parse_bools_transform, akeys] using h
      exact h2.imp id ih
    | seq l =>
      have h2 : x = k2 ∨ x ∈ akeys (parse_bools_transform t) := by
        simpa [parse_bools_transform, akeys] using h
      exact h2.imp id ih

theorem parse_bools_aget_true (kw : Kwargs) (k : String)
    (h : aget kw k = some (.bool true)) :
    aget (parse_bools_transform kw) k = some (.str "") := by
  induction kw with
  | nil => simp [aget] at h
  | cons hd t ih =>
    obtain ⟨k2, w⟩ := hd
    by_cases hkk : k2 = k
    · subst hkk
      rw [aget, if_pos rfl] at h
      injection h with h
      subst h
      simp [parse_bools_transform, aget]
    · rw [aget, if_neg hkk] at h
      cases w with
      | bool b => cases b <;> simp [parse_bools_transform, aget, hkk, ih h]
      | str s => simp [parse_bools_transform, aget, hkk, ih h]
      | int n => simp [parse_bools_transform, aget, hkk, ih h]
      | seq l => simp [parse_bools_transform, aget, hkk, ih h]

theorem parse_bools_aget_false (kw : Kwargs) (k : String)
    (hk : (akeys kw).Nodup) (h : aget kw k = some (.bool false)) :
    aget (parse_bools_transform kw) k = none := by
  induction kw with
  | nil => simp [aget] at h
  | cons hd t ih =>
    obtain ⟨k2, w⟩ := hd
    have hk2 : (k2 :: akeys t).Nodup := hk
    by_cases hkk : k2 = k
    · subst hkk
      rw [aget, if_pos rfl] at h
      injection h with h
      subst h
      simp only [parse_bools_transform]
      rw [aget_eq_none_iff]
      exact fun hm => (List.nodup_cons.1 hk2).1 (akeys_parse_bools_subset t k2 hm)
    · rw [aget, if_neg hkk] at h
      have ht := ih (List.nodup_cons.1 hk2).2 h
      cases w with
      | bool b => cases b <;> simp [parse_bools_transform, aget, hkk, ht]
      | str s => simp [parse_bools_transform, aget, hkk, ht]
      | int n => simp [parse_bools_transform, aget, hkk, ht]
      | seq l => simp [parse_bools_transform, aget, hkk, ht]

theorem parse_bools_aget_other (kw : Kwargs) (k : String) (v : Value)
    (h : aget kw k = some v) (hb : v.isBool = false) :
    aget (parse_bools_transform kw) k = some v := by
  induction kw with
  | nil => simp [aget] at h
  | cons hd t ih =>
    obtain ⟨k2, w⟩ := hd
    by_cases hkk : k2 = k
    · subst hkk
      rw [aget, if_pos rfl] at h
      injection h with h
      subst h
      cases w with
      | bool b => simp [Value.isBool] at hb
      | str s => simp [parse_bools_transform, aget]
      | int n => simp [parse_bools_transform, aget]
      | seq l => simp [parse_bools_transform, aget]
    · rw [aget, if_neg hkk] at h
      cases w with
      | bool b => cases b <;> simp [parse_bools_transform, aget, hkk, ih h]
      | str s => simp [parse_bools_transform, aget, hkk, ih h]
      | int n => simp [parse_bools_transform, aget, hkk, ih h]
      | seq l => simp [parse_bools_transform, aget, hkk, ih h]

/-- C7: the blanket boolean pass of `parse_bools` applies the
boolean-flag rule to every keyword argument of a call (with unique
keys, as a Python dict): `True` becomes the empty string, `False`
removes the key, and every non-boolean value passes through with key
and value unchanged. -/
theorem parse_bools_rule (kw : Kwargs) (hk : (akeys kw).Nodup) (k : String) (v : Value)
    (hv : aget kw k = some v) :
    (v = .bool true → aget (parse_bools_transform kw) k = some (.str "")) ∧
    (v = .bool false → aget (parse_bools_transform kw) k = none) ∧
    (v.isBool = false → aget (parse_bools_transform kw) k = some v) := by
  refine ⟨?_, ?_, ?_⟩
  · rintro rfl
    exact parse_bools_aget_true kw k hv
  · rintro rfl
    exact parse_bools_aget_false kw k hk hv
  · intro hb
    exact parse_bools_aget_other kw k v hv hb

/-- C7 witness at the doctest calls of `parse_bools`. -/
theorem parse_bools_rule_witness :
    aget (parse_bools_transform [("A", Value.str "something"), ("P", Value.bool true)]) "P"
      = some (Value.str "") ∧
    aget (parse_bools_transform [("A", Value.str "something"), ("P", Value.bool false)]) "P"
      = none ∧
    aget (parse_bools_transform [("A", Value.str "something"), ("P", Value.bool true)]) "A"
      = some (Value.str "something") :=
  ⟨(parse_bools_rule [("A", Value.str "something"), ("P", Value.bool true)] (by decide)
      "P" (Value.bool true) (by decide)).1 rfl,
   (parse_bools_rule [("A", Value.str "something"), ("P", Value.bool false)] (by decide)
      "P" (Value.bool false) (by decide)).2.1 rfl,
   (parse_bools_rule [("A", Value.str "something"), ("P", Value.bool true)] (by decide)
      "A" (Value.str "something") (by decide)).2.2 rfl⟩

/-! ## Lemmas about the sorted alias listing of fmt_docstring -/

theorem char_eq_of_toNat_eq (a b : Char) (h : a.toNat = b.toNat) : a = b :=
  Char.eq_of_val_eq (UInt32.ext h)

theorem charListLe_total : ∀ a b : List Char, charListLe a b = true ∨ charListLe b a = true
  | [], _ => Or.inl rfl
  | _ :: _, [] => Or.inr rfl
  | a :: as, b :: bs => by
    by_cases hab : a = b
    · subst hab
      simp only [charListLe, if_pos rfl]
      exact charListLe_total as bs
    · have hne : a.toNat ≠ b.toNat := fun hh => hab (char_eq_of_toNat_eq a b hh)
      simp only [charListLe, if_neg hab, if_neg (Ne.symm hab), decide_eq_true_eq]
      omega

theorem charListLe_trans : ∀ a b c : List Char, charListLe a b = true →
    charListLe b c = true → charListLe a c = true
  | [], _, _ => fun _ _ => rfl
  | _ :: _, [], _ => fun h1 _ => by simp [charListLe] at h1
  | _ :: _, _ :: _, [] => fun _ h2 => by simp [charListLe] at h2
  | a :: as, b :: bs, c :: cs => by
    intro h1 h2
    by_cases hab : a = b <;> by_cases hbc : b = c
    · subst hab; subst hbc
      simp only [charListLe, if_pos rfl] at h1 h2 ⊢
      exact charListLe_trans as bs cs h1 h2
    · subst hab
      simp only [charListLe, if_pos rfl, if_neg hbc] at h2 ⊢
      exact h2
    · subst hbc
      simp only [charListLe, if_neg hab] at h1 ⊢
      exact h1
    · simp only [charListLe, if_neg hab, if_neg hbc, decide_eq_true_eq] at h1 h2
      have hac : a ≠ c := fun hh => by
        subst hh
        omega
      simp only [charListLe, if_neg hac, decide_eq_true_eq]
      omega

theorem charListLe_antisymm : ∀ a b : List Char, charListLe a b = true →
    charListLe b a = true → a = b
  | [], [] => fun _ _ => rfl
  | [], _ :: _ => fun _ h2 => by simp [charListLe] at h2
  | _ :: _, [] => fun h1 _ => by simp [charListLe] at h1
  | a :: as, b :: bs => by
    intro h1 h2
    by_cases hab : a = b
    · subst hab
      simp only [charListLe, if_pos rfl] at h1 h2
      rw [charListLe_antisymm as bs h1 h2]
    · simp only [charListLe, if_neg hab, if_neg (Ne.symm hab), decide_eq_true_eq] at h1 h2
      omega

theorem pyLe_total (a b : String) : pyLe a b = true ∨ pyLe b a = true :=
  charListLe_total a.data b.data

theorem pyLe_trans (a b c : String) (h1 : pyLe a b = true) (h2 : pyLe b c = true) :
    pyLe a c = true :=
  charListLe_trans a.data b.data c.data h1 h2

theorem pyLe_antisymm (a b : String) (h1 : pyLe a b = true) (h2 : pyLe b a = true) :
    a = b :=
  String.ext (charListLe_antisymm a.data b.data h1 h2)

instance : IsAntisymm String (fun a b => pyLe a b = true) := ⟨pyLe_antisymm⟩

theorem insertSorted_perm (x : String) (l : List String) :
    (insertSorted x l).Perm (x :: l) := by
  induction l with
  | nil => exact List.Perm.refl _
  | cons y t ih =>
    rw [insertSorted]
    by_cases h : pyLe x y = true
    · rw [if_pos h]
    · rw [if_neg h]
      exact (ih.cons y).trans (List.Perm.swap x y t)

theorem sortStrings_perm (l : List String) : (sortStrings l).Perm l := by
  induction l with
  | nil => exact List.Perm.refl _
  | cons x t ih =>
    rw [sortStrings]
    exact (insertSorted_perm x (sortStrings t)).trans (ih.cons x)

theorem insertSorted_pairwise (x : String) (l : List String)
    (h : l.Pairwise (fun a b => pyLe a b = true)) :
    (insertSorted x l).Pairwise (fun a b => pyLe a b = true) := by
  induction l with
  | nil => simp [insertSorted]
  | cons y t ih =>
    rw [insertSorted]
    rcases List.pairwise_cons.1 h with ⟨hy, ht⟩
    by_cases hxy : pyLe x y = true
    · rw [if_pos hxy]
      refine List.pairwise_cons.2 ⟨?_, h⟩
      intro b hb
      rcases List.mem_cons.1 hb with rfl | hb2
      · exact hxy
      · exact pyLe_trans x y b hxy (hy b hb2)
    · rw [if_neg hxy]
      have hyx : pyLe y x = true := (pyLe_total x y).resolve_left hxy
      refine List.pairwise_cons.2 ⟨?_, ih ht⟩
      intro b hb
      rcases List.mem_cons.1 ((insertSorted_perm x t).mem_iff.1 hb) with rfl | h2
      · exact hyx
      · exact hy b h2

theorem sortStrings_pairwise (l : List String) :
    (sortStrings l).Pairwise (fun a b => pyLe a b = true) := by
  induction l with
  | nil => simp [sortStrings]
  | cons x t ih =>
    rw [sortStrings]
    exact insertSorted_pairwise x (sortStrings t) ih

theorem mem_of_aget_eq_some {α : Type} (d : List (String × α)) (k : String) (v : α)
    (h : aget d k = some v) : (k, v) ∈ d := by
  induction d with
  | nil => simp [aget] at h
  | cons hd t ih =>
    obtain ⟨k2, w⟩ := hd
    by_cases hk : k2 = k
    · subst hk
      rw [aget, if_pos rfl] at h
      injection h with h
      subst h
      exact List.mem_cons_self _ _
    · rw [aget, if_neg hk] at h
      exact List.mem_cons_of_mem _ (ih h)

theorem aget_perm {α : Type} (d1 d2 : List (String × α)) (h : d1.Perm d2)
    (hn : (akeys d1).Nodup) (k : String) : aget d1 k = aget d2 k := by
  have hn2 : (akeys d2).Nodup := ((h.map Prod.fst).nodup_iff).1 hn
  cases hh : aget d1 k with
  | some v =>
    exact (aget_of_mem d2 k v hn2 (h.mem_iff.1 (mem_of_aget_eq_some d1 k v hh))).symm
  | none =>
    rw [aget_eq_none_iff] at hh
    symm
    rw [aget_eq_none_iff]
    exact fun hm => hh (((h.map Prod.fst).mem_iff).2 hm)

/-! ## C8: the alias listing is sorted by canonical code -/

/-- C8: the alias-listing block built by `fmt_docstring` renders one
line per declared `(canonical, friendly)` pair, in ascending lexical
order of the canonical codes, and is identical for any declaration
order of the same alias table (unique canonical codes, as a Python
dict). -/
theorem fmt_docstring_aliases_sorted_order (al al2 : List (String × String))
    (hk : (akeys al).Nodup) (hperm : al.Perm al2) :
    fmt_docstring_aliases al = fmt_docstring_aliases al2 ∧
    (fmt_docstring_sorted_keys al).Pairwise (fun a b => pyLe a b = true) ∧
    (fmt_docstring_sorted_keys al).Perm (akeys al) ∧
    (∀ c f, (c, f) ∈ al → ("- " ++ c ++ " = " ++ f) ∈ fmt_docstring_aliases al) := by
  have hkeysperm : (akeys al).Perm (akeys al2) := hperm.map Prod.fst
  have hsorteq : fmt_docstring_sorted_keys al = fmt_docstring_sorted_keys al2 := by
    refine List.eq_of_perm_of_sorted ?_ (sortStrings_pairwise _) (sortStrings_pairwise _)
    exact (sortStrings_perm _).trans (hkeysperm.trans (sortStrings_perm _).symm)
  refine ⟨?_, sortStrings_pairwise _, sortStrings_perm _, ?_⟩
  · unfold fmt_docstring_aliases
    rw [hsorteq]
    congr 1
    refine List.map_congr_left (fun arg _ => ?_)
    rw [aget_perm al al2 hperm hk arg]
  · intro c f hm
    have hc : c ∈ fmt_docstring_sorted_keys al :=
      (sortStrings_perm _).mem_iff.2 (List.mem_map_of_mem Prod.fst hm)
    have hget : aget al c = some f := aget_of_mem al c f hk hm
    refine List.mem_cons_of_mem _ (List.mem_map.2 ⟨c, hc, ?_⟩)
    rw [hget]
    rfl

/-- C8 witness: the doctest table `{R: region, J: projection}` in both
declaration orders renders the same block, `J` line before `R`. -/
theorem fmt_docstring_aliases_sorted_order_witness :
    fmt_docstring_aliases [("R", "region"), ("J", "projection")]
      = fmt_docstring_aliases [("J", "projection"), ("R", "region")] ∧
    (fmt_docstring_sorted_keys [("R", "region"), ("J", "projection")]).Pairwise
      (fun a b => pyLe a b = true) ∧
    (fmt_docstring_sorted_keys [("R", "region"), ("J", "projection")]).Perm
      (akeys [("R", "region"), ("J", "projection")]) ∧
    (∀ c f, (c, f) ∈ [("R", "region"), ("J", "projection")] →
      ("- " ++ c ++ " = " ++ f) ∈ fmt_docstring_aliases [("R", "region"), ("J", "projection")]) :=
  fmt_docstring_aliases_sorted_order [("R", "region"), ("J", "projection")]
    [("J", "projection"), ("R", "region")] (by decide) (by decide)

/-! ## C9: the call-time chain has no exception path

Each operation of the chain that can raise in Python — the `pop` and
subscript lookups on the keyword dict and the `separators[fmt]` lookup —
is modelled as fallible, and the resulting fallible chain is proved to
always return the result of the total chain. -/

/-- Fallible dict subscript `d[k]`: raises `KeyError` when absent. -/
def agetE {α : Type} (d : List (String × α)) (k : String) : Except String α :=
  match aget d k with
  | some v => .ok v
  | none => .error "KeyError"

/-- The alias step with its `kwargs.pop(alias)` lookup fallible. -/
def use_alias_stepE (kw : Kwargs) (p : String × String) : Except String Kwargs :=
  if acontains kw p.2 then do
    let v ← agetE kw p.2
    pure (aset (aerase kw p.2) p.1 v)
  else pure kw

/-- The alias pass with fallible steps. -/
def use_alias_transformE (aliases : List (String × String)) (kw : Kwargs) :
    Except String Kwargs :=
  aliases.foldlM use_alias_stepE kw

/-- The conversion step with its `kwargs[arg]` and `separators[fmt]`
lookups fallible. -/
def kwargs_to_strings_stepE (kw : Kwargs) (p : String × String) : Except String Kwargs :=
  if acontains kw p.1 then do
    let value ← agetE kw p.1
    if p.2 = "bool" then
      match value with
      | .bool b => pure (if b then aset kw p.1 (.str "") else aerase kw p.1)
      | _ => pure kw
    else if p.2 = "sequence" ∨ p.2 = "sequence_comma" then
      if is_nonstr_iter value then
        match value with
        | .seq l => do
            let sep ← agetE separators p.2
            pure (aset kw p.1 (.str (String.intercalate sep (l.map Scalar.fmt))))
        | _ => pure kw
      else pure kw
    else pure kw
  else pure kw

/-- The conversion pass with fallible steps. -/
def kwargs_to_strings_transformE (conversions : List (String × String)) (kw : Kwargs) :
    Except String Kwargs :=
  conversions.foldlM kwargs_to_strings_stepE kw

/-- The composed fallible chain handing `(args, kwargs)` to the module. -/
def decorated_callE (aliases conversions : List (String × String)) (args : List Value)
    (kw : Kwargs) : Except String (List Value × Kwargs) := do
  let kw1 ← use_alias_transformE aliases kw
  let kw2 ← kwargs_to_strings_transformE conversions kw1
  pure (args, kw2)

theorem acontains_eq_isSome {α : Type} (d : List (String × α)) (k : String) :
    acontains d k = (aget d k).isSome := by
  induction d with
  | nil => simp [acontains, aget]
  | cons hd t ih =>
    obtain ⟨k2, w⟩ := hd
    by_cases hk : k2 = k <;> simp [acontains, aget, hk, ih]

theorem use_alias_stepE_eq (kw : Kwargs) (p : String × String) :
    use_alias_stepE kw p = .ok (use_alias_step kw p) := by
  cases hh : aget kw p.2 with
  | none =>
    simp [use_alias_stepE, use_alias_step, acontains_eq_isSome, hh, pure, Except.pure]
  | some v =>
    simp [use_alias_stepE, use_alias_step, acontains_eq_isSome, hh, agetE,
      bind, Except.bind, pure, Except.pure]

theorem use_alias_transformE_eq (al : List (String × String)) (kw : Kwargs) :
    use_alias_transformE al kw = .ok (use_alias_transform al kw) := by
  induction al generalizing kw with
  | nil => rfl
  | cons p t ih =>
    rw [use_alias_transformE, List.foldlM_cons, use_alias_stepE_eq]
    show (Except.ok (use_alias_step kw p)).bind _ = _
    rw [Except.bind]
    exact ih (use_alias_step kw p)

theorem kwargs_to_strings_stepE_eq (kw : Kwargs) (p : String × String) :
    kwargs_to_strings_stepE kw p = .ok (kwargs_to_strings_step kw p) := by
  cases hh : aget kw p.1 with
  | none =>
    simp [kwargs_to_strings_stepE, kwargs_to_strings_step, acontains_eq_isSome, hh,
      pure, Except.pure]
  | some value =>
    simp only [kwargs_to_strings_stepE, kwargs_to_strings_step, acontains_eq_isSome, hh,
      Option.isSome_some, if_true, agetE, bind, Except.bind]
    by_cases hb : p.2 = "bool"
    · rw [if_pos hb, if_pos hb]
      cases value with
      | bool b => rfl
      | str s => rfl
      | int n => rfl
      | seq l => rfl
    · rw [if_neg hb, if_neg hb]
      by_cases hs : p.2 = "sequence" ∨ p.2 = "sequence_comma"
      · rw [if_pos hs, if_pos hs]
        cases value with
        | seq l =>
          simp only [is_nonstr_iter, if_true]
          rcases hs with h | h <;> rw [h] <;> rfl
        | str s => rfl
        | int n => rfl
        | bool b => rfl
      · rw [if_neg hs, if_neg hs]
        rfl

theorem kwargs_to_strings_transformE_eq (conv : List (String × String)) (kw : Kwargs) :
    kwargs_to_strings_transformE conv kw = .ok (kwargs_to_strings_transform conv kw) := by
  induction conv generalizing kw with
  | nil => rfl
  | cons p t ih =>
    rw [kwargs_to_strings_transformE, List.foldlM_cons, kwargs_to_strings_stepE_eq]
    show (Except.ok (kwargs_to_strings_step kw p)).bind _ = _
    rw [Except.bind]
    exact ih (kwargs_to_strings_step kw p)

/-- C9: for every alias table, conversion table and call-time argument
set — any positional values, any keyword names and values, declared or
not, well-typed or not — the fallible chain (with every raising
operation of the call-time transformations modelled) returns normally,
with the same result as the total chain: there is no runtime exception
path in the call-time transformations. -/
theorem decorated_call_no_exception (al conv : List (String × String))
    (args : List Value) (kw : Kwargs) :
    decorated_callE al conv args kw = .ok (decorated_call al conv args kw) := by
  rw [decorated_callE, use_alias_transformE_eq]
  show (Except.ok _).bind _ = _
  rw [Except.bind, kwargs_to_strings_transformE_eq]
  show (Except.ok _).bind _ = _
  rw [Except.bind]
  rfl

/-! ## C10: the conversion pass is idempotent -/

/-- A value (or its absence) on which a conversion of the given kind is
a no-op: booleans are gone for kind `bool`, sequences are gone for the
sequence kinds. -/
def conv_stable (f : String) : Option Value → Prop
  | none => True
  | some v => (f = "bool" → v.isBool = false) ∧
      ((f = "sequence" ∨ f = "sequence_comma") → is_nonstr_iter v = false)

theorem step_id_of_stable (kw : Kwargs) (p : String × String)
    (h : conv_stable p.2 (aget kw p.1)) : kwargs_to_strings_step kw p = kw := by
  cases hh : aget kw p.1 with
  | none => simp [kwargs_to_strings_step, hh]
  | some v =>
    rw [hh] at h
    by_cases hb : p.2 = "bool"
    · cases v with
      | bool b => exact absurd (h.1 hb) (by simp [Value.isBool])
      | str s => simp [kwargs_to_strings_step, hh, hb]
      | int n => simp [kwargs_to_strings_step, hh, hb]
      | seq l => simp [kwargs_to_strings_step, hh, hb]
    · by_cases hs : p.2 = "sequence" ∨ p.2 = "sequence_comma"
      · have hni := h.2 hs
        cases v with
        | seq l => simp [is_nonstr_iter] at hni
        | str s => simp [kwargs_to_strings_step, hh, if_neg hb, if_pos hs, is_nonstr_iter]
        | int n => simp [kwargs_to_strings_step, hh, if_neg hb, if_pos hs, is_nonstr_iter]
        | bool b => simp [kwargs_to_strings_step, hh, if_neg hb, if_pos hs, is_nonstr_iter]
      · simp [kwargs_to_strings_step, hh, if_neg hb, if_neg hs]

theorem transform_id_of_stable (conv : List (String × String)) (kw : Kwargs)
    (h : ∀ p ∈ conv, conv_stable p.2 (aget kw p.1)) :
    kwargs_to_strings_transform conv kw = kw := by
  induction conv with
  | nil => rfl
  | cons p t ih =>
    rw [kwargs_to_strings_transform_cons, step_id_of_stable kw p (h p (List.mem_cons_self p t))]
    exact ih (fun q hq => h q (List.mem_cons_of_mem p hq))

theorem stable_after_transform (conv : List (String × String)) (hc : (akeys conv).Nodup)
    (kw : Kwargs) (hk : (akeys kw).Nodup) :
    ∀ p ∈ conv, conv_stable p.2 (aget (kwargs_to_strings_transform conv kw) p.1) := by
  intro p hp
  obtain ⟨k, f⟩ := p
  obtain ⟨kw1, h1, h2, h3⟩ := kwargs_to_strings_transform_decomp conv hc k f hp kw
  show conv_stable f (aget (kwargs_to_strings_transform conv kw) k)
  rw [h3]
  cases hv : aget kw1 k with
  | none =>
    have hid : kwargs_to_strings_step kw1 (k, f) = kw1 := by
      simp [kwargs_to_strings_step, hv]
    rw [hid, hv]
    trivial
  | some v =>
    by_cases hb : f = "bool"
    · subst hb
      cases v with
      | bool b =>
        cases b with
        | false =>
          rw [kwargs_to_strings_step_bool_false kw1 k hv, aget_aerase_self kw1 k (h2 hk)]
          trivial
        | true =>
          rw [kwargs_to_strings_step_bool_true kw1 k hv, aget_aset_self]
          exact ⟨fun _ => rfl, fun hs => absurd hs (by decide)⟩
      | str s =>
        rw [kwargs_to_strings_step_bool_other kw1 k _ hv rfl, hv]
        exact ⟨fun _ => rfl, fun hs => absurd hs (by decide)⟩
      | int n =>
        rw [kwargs_to_strings_step_bool_other kw1 k _ hv rfl, hv]
        exact ⟨fun _ => rfl, fun hs => absurd hs (by decide)⟩
      | seq l =>
        rw [kwargs_to_strings_step_bool_other kw1 k _ hv rfl, hv]
        exact ⟨fun _ => rfl, fun hs => absurd hs (by decide)⟩
    · by_cases hs : f = "sequence" ∨ f = "sequence_comma"
      · cases v with
        | seq l =>
          rw [kwargs_to_strings_step_seq kw1 k f l hv hs, aget_aset_self]
          exact ⟨fun _ => rfl, fun _ => rfl⟩
        | str s =>
          rw [kwargs_to_strings_step_seq_other kw1 k f _ hv rfl hs, hv]
          exact ⟨fun hb2 => absurd hb2 hb, fun _ => rfl⟩
        | int n =>
          rw [kwargs_to_strings_step_seq_other kw1 k f _ hv rfl hs, hv]
          exact ⟨fun hb2 => absurd hb2 hb, fun _ => rfl⟩
        | bool b =>
          rw [kwargs_to_strings_step_seq_other kw1 k f _ hv rfl hs, hv]
          exact ⟨fun hb2 => absurd hb2 hb, fun _ => rfl⟩
      · have hid : kwargs_to_strings_step kw1 (k, f) = kw1 := by
          simp [kwargs_to_strings_step, hv, if_neg hb, if_neg hs]
        rw [hid, hv]
        exact ⟨fun hb2 => absurd hb2 hb, fun hs2 => absurd hs2 hs⟩

/-- C10: applying the value-normalization pass of `kwargs_to_strings`
twice yields the same keyword set as applying it once, for every
conversion table and call keyword set with unique keys: converted
values are strings that no rule converts further, removed keys stay
absent, unconverted values stay unconverted. -/
theorem kwargs_to_strings_idempotent (conv : List (String × String))
    (hc : (akeys conv).Nodup) (kw : Kwargs) (hk : (akeys kw).Nodup) :
    kwargs_to_strings_transform conv (kwargs_to_strings_transform conv kw)
      = kwargs_to_strings_transform conv kw :=
  transform_id_of_stable conv (kwargs_to_strings_transform conv kw)
    (stable_after_transform conv hc kw hk)

/-- C10 witness at the doctest table and mixed call. -/
theorem kwargs_to_strings_idempotent_witness :
    kwargs_to_strings_transform [("R", "sequence"), ("P", "bool"), ("i", "sequence_comma")]
      (kwargs_to_strings_transform [("R", "sequence"), ("P", "bool"), ("i", "sequence_comma")]
        [("R", Value.seq [.int 1, .int 2]), ("P", Value.bool true), ("A", Value.bool false),
         ("i", Value.seq [.int 5, .int 6])])
      = kwargs_to_strings_transform [("R", "sequence"), ("P", "bool"), ("i", "sequence_comma")]
        [("R", Value.seq [.int 1, .int 2]), ("P", Value.bool true), ("A", Value.bool false),
         ("i", Value.seq [.int 5, .int 6])] :=
  kwargs_to_strings_idempotent [("R", "sequence"), ("P", "bool"), ("i", "sequence_comma")]
    (by decide)
    [("R", Value.seq [.int 1, .int 2]), ("P", Value.bool true), ("A", Value.bool false),
     ("i", Value.seq [.int 5, .int 6])] (by decide)
